import Mathlib

/-!
Shallow embedding of the go-semver library (`semver.go`) and proofs about it.

Go strings are modelled as `List Char`.  All inputs the grammar accepts are
ASCII, and for ASCII strings Go's byte indices, byte slicing and byte-wise
lexicographic comparison coincide with the character-level operations used
here (UTF-8 byte order also coincides with code-point order in general).
Go `int` values used as stream positions are modelled as `Int`, since the
source can produce negative positions (`pos+i-1` in `prerelease`).
-/

namespace Semver

/-- A Go string, modelled as a list of characters. -/
abbrev Str := List Char

/-- `Version` struct from `semver.go`.  Go's `nil` slice and empty slice are
both modelled as `[]`; nothing in the modelled code distinguishes them. -/
structure Version where
  Major : Str
  Minor : Str
  Patch : Str
  Prerelease : List Str
  Buildmetadata : List Str
deriving DecidableEq, Repr

/-- `Version{}` — the Go zero value of the struct. -/
def Version.zero : Version := ⟨[], [], [], [], []⟩

/-- `positionError` from `semver.go`: a stream position plus a message. -/
structure PosError where
  pos : Int
  msg : String
deriving DecidableEq, Repr

/-- Result of a consumer: the remaining stream, the (possibly mutated)
version and an optional error.  Go's consumer mutates `*Version` in place
and returns `(remain, err)`; here the mutated version is returned
explicitly. -/
abbrev CResult := Str × Version × Option PosError

/-- `consumer` type from `semver.go`. -/
abbrev Consumer := Int → Str → Version → CResult

/-- Go rune test `s >= '0' && s <= '9'` (the negation of the break test in
`number`). -/
def isDig (c : Char) : Bool := decide (48 ≤ c.toNat ∧ c.toNat ≤ 57)

/-- Character-set test from `prerelease`/`buildmetadata`: the negation of
`(s < '0' || s > '9') && (s < 'a' || s > 'z') && (s < 'A' || s > 'Z') && s != '-'`. -/
def isIdentChar (c : Char) : Bool :=
  isDig c || decide (97 ≤ c.toNat ∧ c.toNat ≤ 122) ||
    decide (65 ≤ c.toNat ∧ c.toNat ≤ 90) || decide (c = '-')

/-- `nameFor` from `semver.go`. -/
def nameFor (val : Str) : String :=
  if val = ['.'] then "dot"
  else if val = ['+'] then "plus"
  else if val = ['-'] then "minus"
  else String.mk val

/-- `literal` from `semver.go`. -/
def literal (val : Str) : Consumer := fun pos stream v =>
  if stream = [] then
    (stream, v, some ⟨pos, "unexpected end of stream while " ++ nameFor val ++ " was expected"⟩)
  else if val.isPrefixOf stream then
    (stream.drop val.length, v, none)
  else
    (stream, v, some ⟨pos, "unexpected character in place where " ++ nameFor val ++ " was expected"⟩)

/-- `dot` from `semver.go`. -/
def dot : Consumer := literal ['.']

/-- `plus` from `semver.go`. -/
def plus : Consumer := literal ['+']

/-- `minus` from `semver.go`. -/
def minus : Consumer := literal ['-']

/-- `number` from `semver.go`: greedily consume digits; the Go loop sets
`num` to the digit prefix and `remain` to the rest, i.e. a
takeWhile/dropWhile split at the first non-digit. -/
def number (f : Version → Str → Version) : Consumer := fun pos stream v =>
  let num := stream.takeWhile isDig
  let remain := stream.dropWhile isDig
  if num = [] then
    (stream, v, some ⟨pos + 1, "unexpected non-numeric character"⟩)
  else if num.length > 1 ∧ num.headI = '0' then
    (stream, v, some ⟨pos + 1, "unexpected leading zero"⟩)
  else
    (remain, f v num, none)

/-- `major` from `semver.go`. -/
def major : Consumer := number (fun v n => { v with Major := n })

/-- `minor` from `semver.go`. -/
def minor : Consumer := number (fun v n => { v with Minor := n })

/-- `patch` from `semver.go`. -/
def patch : Consumer := number (fun v n => { v with Patch := n })

/-- `sequence` from `semver.go`.  On a consumer's failure Go executes
`return stream, err` where `stream` has been advanced past all previously
successful consumers; the recursion below returns the current level's
stream, which is exactly that value. -/
def sequence : List Consumer → Consumer
  | [] => fun _ s v => (s, v, none)
  | c :: cs => fun pos s v =>
      match c pos s v with
      | (_, v1, some e) => (s, v1, some e)
      | (r, v1, none) => sequence cs (pos + ((s.length : Int) - (r.length : Int))) r v1

/-- Loop of `optional` from `semver.go` over the consumers after the probe.
`orig` is `optional`'s own input stream: on failure Go returns it
unchanged, and the position update `pos += len(stream) - len(remain)` also
uses `orig`'s length (cumulative, which double-counts earlier consumption —
kept faithfully). -/
def optLoop (orig : Str) : List Consumer → Int → Str → Version → CResult
  | [], _, r, v => (r, v, none)
  | c :: cs, pos, r, v =>
      match c pos r v with
      | (_, v1, some e) => (orig, v1, some e)
      | (r1, v1, none) => optLoop orig cs (pos + ((orig.length : Int) - (r1.length : Int))) r1 v1

/-- `optional` from `semver.go`. -/
def optional (probe : Consumer) (cs : List Consumer) : Consumer := fun pos s v =>
  match probe pos s v with
  | (_, v1, some _) => (s, v1, none)
  | (r, v1, none) => optLoop s cs (pos + ((s.length : Int) - (r.length : Int))) r v1

/-- One step through the cycle of consumers in `repeat`. -/
inductive RepStep where
  | stop (r : Str) (v : Version)
  | hardErr (v : Version) (e : PosError)
  | next (pos : Int) (r : Str) (v : Version)

/-- Tail of one `repeat` cycle (consumers at cycle index `i % len > 0`):
a failure here is a hard error. -/
def repPassTail : List Consumer → Int → Str → Version → RepStep
  | [], pos, s, v => .next pos s v
  | c :: cs, pos, s, v =>
      match c pos s v with
      | (_, v1, some e) => .hardErr v1 e
      | (r, v1, none) => repPassTail cs (pos + ((s.length : Int) - (r.length : Int))) r v1

/-- One full cycle of `repeat`: a failure of the first consumer of the
cycle stops the loop successfully, Go returning the remain produced by that
failing call. -/
def repPass : List Consumer → Int → Str → Version → RepStep
  | [], pos, s, v => .next pos s v
  | c :: cs, pos, s, v =>
      match c pos s v with
      | (r, v1, some _) => .stop r v1
      | (r, v1, none) => repPassTail cs (pos + ((s.length : Int) - (r.length : Int))) r v1

/-- `repeat` from `semver.go`, with explicit fuel bounding the number of
cycles.  Every cycle used by the grammar (`dot` then an identifier)
consumes at least one character, so `stream.length + 1` cycles can never be
exhausted on those uses; the fuel-out branch is unreachable there.  A
mid-cycle hard error returns `orig`, the stream originally given to
`repeat` (Go: `return stream, err` with `stream` never reassigned). -/
def repeatFuel (orig : Str) : Nat → List Consumer → Int → Str → Version → CResult
  | 0, _, _, s, v => (s, v, some ⟨-1, "model: repeat fuel exhausted"⟩)
  | Nat.succ n, cs, pos, s, v =>
      match repPass cs pos s v with
      | .stop r v1 => (r, v1, none)
      | .hardErr v1 e => (orig, v1, some e)
      | .next pos1 r v1 => repeatFuel orig n cs pos1 r v1

/-- `repeat` from `semver.go`. -/
def repeatGo (cs : List Consumer) : Consumer := fun pos s v =>
  repeatFuel s (s.length + 1) cs pos s v

/-- Outcome of the scanning loop in `prerelease`/`buildmetadata`. -/
inductive ScanRes where
  | err (e : PosError)
  | split (i : Nat) (numberFlag : Bool)
  | whole (numberFlag : Bool)
deriving DecidableEq, Repr

/-- The `for i, s := range stream` loop of `prerelease`: `i` is the running
index, `nf` the `numberFlag` accumulated so far. -/
def preScan (pos : Int) : Str → Nat → Bool → ScanRes
  | [], _, nf => .whole nf
  | c :: rest, i, nf =>
      if c = '.' ∨ c = '+' then
        if i = 0 then .err ⟨pos + (i : Int), "unexpected empty prerelease"⟩
        else .split i nf
      else if ¬ isIdentChar c then .err ⟨pos + (i : Int) - 1, "invalid character in prerelease"⟩
      else preScan pos rest (i + 1) (nf && isDig c)

/-- `prerelease` from `semver.go`.  Note that on the leading-zero error the
Go code has already appended the token to `v.Prerelease` and returns the
original stream with the error. -/
def prerelease : Consumer := fun pos s v =>
  if s = [] then (s, v, some ⟨pos, "unexpected end of stream in prerelease"⟩)
  else
    match preScan pos s 0 true with
    | .err e => (s, v, some e)
    | .split i nf =>
        let token := s.take i
        let v1 := { v with Prerelease := v.Prerelease ++ [token] }
        if nf ∧ token.length > 1 ∧ token.headI = '0' then
          (s, v1, some ⟨pos, "unexpected leading zero"⟩)
        else (s.drop i, v1, none)
    | .whole nf =>
        let v1 := { v with Prerelease := v.Prerelease ++ [s] }
        if nf ∧ s.length > 1 ∧ s.headI = '0' then
          (s, v1, some ⟨pos, "unexpected leading zero"⟩)
        else ([], v1, none)

/-- The scanning loop of `buildmetadata` (no number flag, and the
invalid-character error position is `pos+i`, unlike `prerelease`). -/
def bmScan (pos : Int) : Str → Nat → ScanRes
  | [], _ => .whole true
  | c :: rest, i =>
      if c = '.' ∨ c = '+' then
        if i = 0 then .err ⟨pos + (i : Int), "unexpected empty prerelease"⟩
        else .split i true
      else if ¬ isIdentChar c then .err ⟨pos + (i : Int), "invalid character in buildmetadata"⟩
      else bmScan pos rest (i + 1)

/-- `buildmetadata` from `semver.go`. -/
def buildmetadata : Consumer := fun pos s v =>
  if s = [] then (s, v, some ⟨pos, "unexpected end of stream in buildmetadata"⟩)
  else
    match bmScan pos s 0 with
    | .err e => (s, v, some e)
    | .split i _ => (s.drop i, { v with Buildmetadata := v.Buildmetadata ++ [s.take i] }, none)
    | .whole _ => ([], { v with Buildmetadata := v.Buildmetadata ++ [s] }, none)

/-- `excess` from `semver.go`. -/
def excess : Consumer := fun pos s v =>
  if s = [] then ([], v, none)
  else (s, v, some ⟨pos, "unexpected extra data"⟩)

/-- The consumer list of `semverParser` from `semver.go`. -/
def semverParserList : List Consumer :=
  [major, dot, minor, dot, patch,
   optional minus [prerelease, repeatGo [dot, prerelease]],
   optional plus [buildmetadata, repeatGo [dot, buildmetadata]],
   excess]

/-- `semverParser` / `defaultParser` from `semver.go`. -/
def semverParser : Consumer := sequence semverParserList

/-- `Parse` from `semver.go`: run the default parser on a fresh `Version`
with empty (non-nil) prerelease and buildmetadata slices; on error return
the zero `Version` together with the error. -/
def Parse (s : Str) : Version × Option PosError :=
  match semverParser 0 s ⟨[], [], [], [], []⟩ with
  | (_, v, none) => (v, none)
  | (_, _, some e) => (Version.zero, some e)

/-- `strings.Join(l, ".")` from the `String` method. -/
def joinDots : List Str → Str
  | [] => []
  | [x] => x
  | x :: xs => x ++ '.' :: joinDots xs

/-- The `String` method of `Version` from `semver.go` (renamed: `String` is
the Lean string type). -/
def VersionString (v : Version) : Str :=
  let core := v.Major ++ '.' :: v.Minor ++ '.' :: v.Patch
  let withPre := if v.Prerelease = [] then core else core ++ '-' :: joinDots v.Prerelease
  if v.Buildmetadata = [] then withPre else withPre ++ '+' :: joinDots v.Buildmetadata

/-! ## Comparator (`Less` and helpers) -/

/-- Numeric value of a list of decimal digit characters, most significant
first (the value `strconv.Atoi` / `big.Int.SetString` compute on the digit
part). -/
def digitsVal : Str → Nat
  | [] => 0
  | c :: r => (c.toNat - 48) * 10 ^ r.length + digitsVal r

/-- `strconv.Atoi` from the Go standard library, as used by `isNum`:
an optional single `+`/`-` sign followed by one or more digits, with the
value required to fit a 64-bit `int`; `none` models a non-nil error
(syntax or range). -/
def atoi (s : Str) : Option Int :=
  let signRest : Int × Str :=
    match s with
    | '+' :: r => (1, r)
    | '-' :: r => (-1, r)
    | r => (1, r)
  let sign := signRest.1
  let rest := signRest.2
  if rest = [] ∨ ¬ rest.all isDig then none
  else
    let n : Int := sign * (digitsVal rest : Int)
    if n < -(2 ^ 63) ∨ n > 2 ^ 63 - 1 then none else some n

/-- `isNum` from `semver.go`: `strconv.Atoi`, keeping only whether it
succeeded and its value (`0` when it failed — never consulted in that
case). -/
def isNum (s : Str) : Bool × Int :=
  match atoi s with
  | some n => (true, n)
  | none => (false, 0)

/-- Go string comparison `a < b`: lexicographic on bytes, which for UTF-8
encoded strings coincides with lexicographic comparison of code points. -/
def strLt : Str → Str → Bool
  | [], [] => false
  | [], _ :: _ => true
  | _ :: _, [] => false
  | a :: as, b :: bs =>
      if a.toNat < b.toNat then true
      else if b.toNat < a.toNat then false
      else strLt as bs

/-- `lessOrEqual` from `semver.go`: length comparison first, then Go string
comparison on equal lengths. -/
def lessOrEqual (a b : Str) : Bool × Bool :=
  if a.length > b.length then (false, false)
  else if a.length < b.length then (true, false)
  else (strLt a b, a == b)

/-- The `for i := 0; i < n; i++` loop of `lessOrEqualStrings` fused with
the trailing length comparisons: the loop walks `min(len a, len b)` pairs
and falls through to the length tests, which is exactly this simultaneous
recursion.  Note the both-numeric case returns immediately even when the
values are equal, exactly as the Go code does. -/
def loesLoop : List Str → List Str → Bool × Bool
  | [], [] => (false, true)
  | [], _ :: _ => (true, false)
  | _ :: _, [] => (false, false)
  | x :: xs, y :: ys =>
      let an := isNum x
      let bn := isNum y
      if an.1 && !bn.1 then (true, false)
      else if !an.1 && bn.1 then (false, false)
      else if an.1 && bn.1 then (decide (an.2 < bn.2), an.2 == bn.2)
      else if strLt x y then (true, false)
      else if strLt y x then (false, false)
      else loesLoop xs ys

/-- `lessOrEqualStrings` from `semver.go`. -/
def lessOrEqualStrings (a b : List Str) : Bool × Bool :=
  if a = [] ∧ b = [] then (false, true)
  else if a = [] then (false, false)
  else if b = [] then (true, false)
  else loesLoop a b

/-- `Less` from `semver.go`. -/
def Less (s1 s2 : Version) : Bool :=
  let m := lessOrEqual s1.Major s2.Major
  if !m.2 then m.1
  else
    let mi := lessOrEqual s1.Minor s2.Minor
    if !mi.2 then mi.1
    else
      let p := lessOrEqual s1.Patch s2.Patch
      if !p.2 then p.1
      else
        let pr := lessOrEqualStrings s1.Prerelease s2.Prerelease
        if !pr.2 then pr.1
        else false

/-! ## Bump engine (value level) -/

/-- `big.Int.SetString(s, 10)` as used by `increment` and `BumpPrelease`:
an optional single sign followed by one or more digits, arbitrary
precision. -/
def parseBigInt (s : Str) : Option Int :=
  let signRest : Int × Str :=
    match s with
    | '+' :: r => (1, r)
    | '-' :: r => (-1, r)
    | r => (1, r)
  if signRest.2 = [] ∨ ¬ signRest.2.all isDig then none
  else some (signRest.1 * (digitsVal signRest.2 : Int))

/-- Decimal rendering of a natural number (`big.Int.String` on
non-negative values). -/
def natToStr (n : Nat) : Str := Nat.toDigits 10 n

/-- `big.Int.String`. -/
def intToStr (n : Int) : Str :=
  if n < 0 then '-' :: natToStr n.natAbs else natToStr n.toNat

/-- Result of one Go `BumpOption` (`func(*Version) error`): the possibly
mutated version together with the returned error; `panicked` models a Go
panic (from `increment` on an unparsable field). -/
inductive OptRes where
  | ok (v : Version)
  | fail (v : Version) (e : String)
  | panicked
deriving DecidableEq, Repr

/-- The type of Go `BumpOption` values at the model level. -/
abbrev BOpt := Version → OptRes

/-- `increment` from `semver.go`, split into its non-panicking part. -/
def increment (n : Str) : Option Str :=
  match parseBigInt n with
  | some k => some (intToStr (k + 1))
  | none => none

/-- `BumpMajor` from `semver.go`. -/
def bumpMajor : BOpt := fun v =>
  match increment v.Major with
  | none => .panicked
  | some m => .ok { v with Major := m, Minor := ['0'], Patch := ['0'], Prerelease := [] }

/-- `BumpMinor` from `semver.go`. -/
def bumpMinor : BOpt := fun v =>
  match increment v.Minor with
  | none => .panicked
  | some m => .ok { v with Minor := m, Patch := ['0'], Prerelease := [] }

/-- `BumpPatch` from `semver.go`. -/
def bumpPatch : BOpt := fun v =>
  match increment v.Patch with
  | none => .panicked
  | some p => .ok { v with Patch := p, Prerelease := [] }

/-- `BumpRelease` from `semver.go`. -/
def bumpRelease : BOpt := fun v =>
  if v.Prerelease = [] then .fail v "no prerelease set in version"
  else .ok { v with Prerelease := [] }

/-- The downward loop of `BumpPrelease`, expressed on the reversed list:
walk from the last identifier towards the first, increment the first one
`big.Int.SetString` accepts and stop. -/
def incLastAux : List Str → List Str
  | [] => []
  | x :: xs =>
      match parseBigInt x with
      | some n => intToStr (n + 1) :: xs
      | none => x :: incLastAux xs

/-- `BumpPrelease`'s effect on the prerelease list. -/
def incLast (l : List Str) : List Str := (incLastAux l.reverse).reverse

/-- `BumpPrelease` from `semver.go`.  When no identifier parses the loop
falls through without `break` and the function returns `nil`: a silent
no-op. -/
def bumpPrelease : BOpt := fun v =>
  if v.Prerelease = [] then .fail v "no prerelease set in version"
  else .ok { v with Prerelease := incLast v.Prerelease }

/-- Rendering of a `positionError` by its `Error` method, used where a
parser error is surfaced through an option. -/
def posErrString (e : PosError) : String :=
  "error at position " ++ toString e.pos ++ ": " ++ e.msg

/-- `BuildMetadata` option from `semver.go` (also usable as a bump
option). -/
def buildMetadataOpt (bl : Str) : BOpt := fun v =>
  if bl = [] then .ok v
  else
    match sequence [buildmetadata, repeatGo [dot, buildmetadata], excess] 0 bl v with
    | (_, v1, none) => .ok v1
    | (_, v1, some e) => .fail v1 (posErrString e)

/-- Result of the Go `Bump` method: the returned `(Version, error)` pair,
or a panic propagated from an option. -/
inductive BumpRes where
  | res (v : Version) (e : Option String)
  | panicked
deriving DecidableEq, Repr

/-- The option loop of `Bump`: on the first failing option Go executes
`return Version{}, err`. -/
def bumpLoop : List BOpt → Version → BumpRes
  | [], nv => .res nv none
  | o :: os, nv =>
      match o nv with
      | .ok nv1 => bumpLoop os nv1
      | .fail _ e => .res Version.zero (some e)
      | .panicked => .panicked

/-- `Bump` from `semver.go` at the value level (the aliasing of the
prerelease slice between the receiver and the copy is modelled separately
below). -/
def Bump (v : Version) (options : List BOpt) : BumpRes :=
  let opts := if options.isEmpty then [bumpMajor, buildMetadataOpt []] else options
  bumpLoop opts { v with Buildmetadata := [] }

/-! ## Bump engine (heap level)

Go slices are references into backing arrays.  `newSemver := *semver` in
`Bump` copies the struct shallowly: both versions' `Prerelease` fields
afterwards refer to the same backing array, so `v.Prerelease[i] = ...` in
`BumpPrelease` writes through to the receiver.  The model below makes the
store explicit to express this. -/

/-- A heap of string arrays; a slice is an index into it (`none` models a
nil slice, as in `Version{}`). -/
abbrev Store := List (List Str)

/-- `Version` with slice fields as references. -/
structure VersionH where
  Major : Str
  Minor : Str
  Patch : Str
  Prerelease : Option Nat
  Buildmetadata : Option Nat
deriving DecidableEq, Repr

/-- Read a slice's contents. -/
def deref (st : Store) : Option Nat → List Str
  | none => []
  | some r => st.getD r []

/-- `sl[i] = x`: write an element through a slice reference. -/
def setElem (st : Store) (r : Option Nat) (i : Nat) (x : Str) : Store :=
  match r with
  | none => st
  | some r => st.set r ((st.getD r []).set i x)

/-- Allocate a fresh backing array (`[]string{...}` or an `append` that
reallocates). -/
def alloc (st : Store) (arr : List Str) : Store × Nat :=
  (st ++ [arr], st.length)

/-- The value of the version a heap version denotes. -/
def loadH (st : Store) (v : VersionH) : Version :=
  ⟨v.Major, v.Minor, v.Patch, deref st v.Prerelease, deref st v.Buildmetadata⟩

/-- Index (from the front) of the last element of `l` accepted by
`big.Int.SetString` — the index at which the downward loop of
`BumpPrelease` stops. -/
def lastNumIdx (l : List Str) : Option Nat :=
  match l.reverse.findIdx? (fun x => (parseBigInt x).isSome) with
  | none => none
  | some k => some (l.length - 1 - k)

/-- A heap-level bump option: may mutate the store through the version's
slice references. -/
abbrev HOpt := Store → VersionH → Store × VersionH × Option String

/-- `BumpPrelease` at the heap level: `v.Prerelease[i] = bigN.String()`
writes the incremented identifier into the shared backing array. -/
def bumpPreleaseH : HOpt := fun st v =>
  let pre := deref st v.Prerelease
  if pre = [] then (st, v, some "no prerelease set in version")
  else
    match lastNumIdx pre with
    | none => (st, v, none)
    | some i =>
        match parseBigInt (pre.getD i []) with
        | some n => (setElem st v.Prerelease i (intToStr (n + 1)), v, none)
        | none => (st, v, none)

/-- The option loop of `Bump` at the heap level. -/
def bumpLoopH : List HOpt → Store → VersionH → Store × VersionH × Option String
  | [], st, nv => (st, nv, none)
  | o :: os, st, nv =>
      match o st nv with
      | (st1, _, some e) => (st1, ⟨[], [], [], none, none⟩, some e)
      | (st1, nv1, none) => bumpLoopH os st1 nv1

/-- `Bump` at the heap level: shallow struct copy (slice references
shared), then `newSemver.Buildmetadata = []string{}` allocates a fresh
empty array for the copy only.  The empty-options default (a major bump)
is not replayed here; the heap model is only applied to explicit option
lists. -/
def BumpH (st : Store) (semver : VersionH) (options : List HOpt) :
    Store × VersionH × Option String :=
  let a := alloc st []
  bumpLoopH options a.1 { semver with Buildmetadata := some a.2 }

/-! ## Canonical numerals -/

/-- A valid decimal numeral without leading zeros: non-empty, all digits,
and no leading `0` unless it is exactly `"0"`. -/
def isNumeral (s : Str) : Prop :=
  s ≠ [] ∧ s.all isDig = true ∧ (1 < s.length → s.headI ≠ '0')

instance (s : Str) : Decidable (isNumeral s) := by unfold isNumeral; infer_instance

/-- Ordering of core triples by arbitrary-precision numeric value of
major, then minor, then patch. -/
def coreTripleLtNum (v1 v2 : Version) : Prop :=
  digitsVal v1.Major < digitsVal v2.Major ∨
    (digitsVal v1.Major = digitsVal v2.Major ∧
      (digitsVal v1.Minor < digitsVal v2.Minor ∨
        (digitsVal v1.Minor = digitsVal v2.Minor ∧
          digitsVal v1.Patch < digitsVal v2.Patch)))

instance (v1 v2 : Version) : Decidable (coreTripleLtNum v1 v2) := by
  unfold coreTripleLtNum; infer_instance

/-! ## Helper lemmas -/

theorem isDig_bounds {c : Char} (h : isDig c = true) : 48 ≤ c.toNat ∧ c.toNat ≤ 57 := by
  simpa [isDig] using h

theorem char_toNat_inj {a b : Char} (h : a.toNat = b.toNat) : a = b := by
  rw [← Char.ofNat_toNat a, ← Char.ofNat_toNat b, h]

/-- The value of a digit string is below `10 ^ length`. -/
theorem digitsVal_lt_pow : ∀ s : Str, s.all isDig = true → digitsVal s < 10 ^ s.length := by
  intro s
  induction s with
  | nil => intro _; simp [digitsVal]
  | cons c r ih =>
      intro h
      rw [List.all_cons, Bool.and_eq_true] at h
      have hc := isDig_bounds h.1
      have hr := ih h.2
      have hcv : c.toNat - 48 ≤ 9 := by omega
      calc (c.toNat - 48) * 10 ^ r.length + digitsVal r
          < (c.toNat - 48) * 10 ^ r.length + 10 ^ r.length := by omega
        _ = (c.toNat - 48 + 1) * 10 ^ r.length := by ring
        _ ≤ 10 * 10 ^ r.length := by
            have : c.toNat - 48 + 1 ≤ 10 := by omega
            exact Nat.mul_le_mul_right _ this
        _ = 10 ^ (c :: r).length := by rw [List.length_cons]; ring

/-- A digit string whose head digit is non-zero is at least
`10 ^ (length - 1)`. -/
theorem pow_le_digitsVal {c : Char} {r : Str} (hc : isDig c = true) (h0 : c ≠ '0') :
    10 ^ r.length ≤ digitsVal (c :: r) := by
  have hb := isDig_bounds hc
  have h1 : 1 ≤ c.toNat - 48 := by
    rcases Nat.lt_or_ge 48 c.toNat with h | h
    · omega
    · exfalso
      have : c.toNat = 48 := by omega
      exact h0 (by
        have h48 : c.toNat = '0'.toNat := by simpa using this
        exact char_toNat_inj h48)
  calc 10 ^ r.length = 1 * 10 ^ r.length := by ring
    _ ≤ (c.toNat - 48) * 10 ^ r.length := Nat.mul_le_mul_right _ h1
    _ ≤ digitsVal (c :: r) := by simp [digitsVal]

/-- A shorter canonical numeral has a strictly smaller value. -/
theorem digitsVal_lt_of_length_lt {a b : Str} (ha : isNumeral a) (hb : isNumeral b)
    (hlen : a.length < b.length) : digitsVal a < digitsVal b := by
  obtain ⟨hbne, hbdig, hbzero⟩ := hb
  obtain ⟨hane, hadig, -⟩ := ha
  cases b with
  | nil => exact absurd rfl hbne
  | cons c r =>
      have halen : 1 ≤ a.length := by
        cases a with
        | nil => exact absurd rfl hane
        | cons x xs => simp
      have hblen : 1 < (c :: r).length := lt_of_le_of_lt halen hlen
      have hc0 : c ≠ '0' := by simpa using hbzero hblen
      have hcdig : isDig c = true := by
        rw [List.all_cons, Bool.and_eq_true] at hbdig
        exact hbdig.1
      calc digitsVal a < 10 ^ a.length := digitsVal_lt_pow a hadig
        _ ≤ 10 ^ r.length := by
            apply Nat.pow_le_pow_right (by omega)
            have : (c :: r).length = r.length + 1 := by simp
            omega
        _ ≤ digitsVal (c :: r) := pow_le_digitsVal hcdig hc0

/-- On the first failing option, `bumpLoop` returns the zero version. -/
theorem bumpLoop_err_zero :
    ∀ (os : List BOpt) (nv w : Version) (e : String),
      bumpLoop os nv = .res w (some e) → w = Version.zero := by
  intro os
  induction os with
  | nil => intro nv w e h; simp [bumpLoop] at h
  | cons o os ih =>
      intro nv w e h
      simp only [bumpLoop] at h
      cases ho : o nv with
      | ok nv1 => rw [ho] at h; exact ih nv1 w e h
      | fail v1 e1 => rw [ho] at h; simp at h; exact h.1.symm
      | panicked => rw [ho] at h; simp at h

/-- `incLastAux` leaves a list with no parsable element unchanged, and
otherwise rewrites exactly the first parsable element. -/
theorem incLastAux_spec :
    ∀ xs : List Str,
      ((∀ x ∈ xs, parseBigInt x = none) ∧ incLastAux xs = xs) ∨
      (∃ p1 x n p2, xs = p1 ++ x :: p2 ∧ (∀ y ∈ p1, parseBigInt y = none) ∧
        parseBigInt x = some n ∧ incLastAux xs = p1 ++ intToStr (n + 1) :: p2) := by
  intro xs
  induction xs with
  | nil => left; simp [incLastAux]
  | cons x xs ih =>
      cases hx : parseBigInt x with
      | some n =>
          right
          exact ⟨[], x, n, xs, by simp, by simp, hx, by simp [incLastAux, hx]⟩
      | none =>
          rcases ih with ⟨hall, heq⟩ | ⟨p1, y, n, p2, hxs, hp1, hy, heq⟩
          · left
            refine ⟨?_, by simp [incLastAux, hx, heq]⟩
            intro z hz
            rcases List.mem_cons.mp hz with rfl | hz
            · exact hx
            · exact hall z hz
          · right
            refine ⟨x :: p1, y, n, p2, by simp [hxs], ?_, hy, ?_⟩
            · intro z hz
              rcases List.mem_cons.mp hz with rfl | hz
              · exact hx
              · exact hp1 z hz
            · simp only [incLastAux, hx, heq, List.cons_append]

/-- Transfer of `incLastAux_spec` through the reversal in `incLast`:
either no identifier parses and the list is unchanged, or the last
parsable identifier is incremented and everything else is kept. -/
theorem incLast_spec (l : List Str) :
    ((∀ x ∈ l, parseBigInt x = none) ∧ incLast l = l) ∨
    (∃ l1 x n l2, l = l1 ++ x :: l2 ∧ parseBigInt x = some n ∧
      (∀ y ∈ l2, parseBigInt y = none) ∧ incLast l = l1 ++ intToStr (n + 1) :: l2) := by
  rcases incLastAux_spec l.reverse with ⟨hall, heq⟩ | ⟨p1, x, n, p2, hxs, hp1, hx, heq⟩
  · left
    constructor
    · intro z hz; exact hall z (List.mem_reverse.mpr hz)
    · simp [incLast, heq]
  · right
    refine ⟨p2.reverse, x, n, p1.reverse, ?_, hx, ?_, ?_⟩
    · have := congrArg List.reverse hxs
      simpa using this
    · intro y hy; exact hp1 y (List.mem_reverse.mp hy)
    · simp [incLast, heq]

/-- Pointwise comparison of the leading digits decides the value order on
equal-length digit strings. -/
theorem digitsVal_lt_of_head_lt {c d : Char} {as bs : Str} (hc : isDig c = true)
    (has : as.all isDig = true) (hlen : as.length = bs.length)
    (hcd : c.toNat < d.toNat) : digitsVal (c :: as) < digitsVal (d :: bs) := by
  have hcb := isDig_bounds hc
  have h1 : digitsVal as < 10 ^ as.length := digitsVal_lt_pow as has
  have hstep : c.toNat - 48 + 1 ≤ d.toNat - 48 := by omega
  calc digitsVal (c :: as) = (c.toNat - 48) * 10 ^ as.length + digitsVal as := rfl
    _ < (c.toNat - 48 + 1) * 10 ^ as.length := by ring_nf; omega
    _ ≤ (d.toNat - 48) * 10 ^ bs.length := by
        rw [← hlen]; exact Nat.mul_le_mul_right _ hstep
    _ ≤ digitsVal (d :: bs) := by simp [digitsVal]

/-- On equal-length digit strings, Go string comparison is numeric value
comparison. -/
theorem strLt_iff_digitsVal_lt : ∀ {a b : Str}, a.all isDig = true → b.all isDig = true →
    a.length = b.length → (strLt a b = true ↔ digitsVal a < digitsVal b) := by
  intro a
  induction a with
  | nil =>
      intro b _ _ hlen
      cases b with
      | nil => simp [strLt]
      | cons d bs => simp at hlen
  | cons c as ih =>
      intro b ha hb hlen
      cases b with
      | nil => simp at hlen
      | cons d bs =>
          rw [List.all_cons, Bool.and_eq_true] at ha hb
          have hlen' : as.length = bs.length := by simpa using hlen
          by_cases h1 : c.toNat < d.toNat
          · simp only [strLt, h1, if_pos]
            simp only [true_iff]
            exact digitsVal_lt_of_head_lt ha.1 ha.2 hlen' h1
          · by_cases h2 : d.toNat < c.toNat
            · simp only [strLt, h1, h2, if_neg, if_pos, not_false_iff]
              constructor
              · intro h; cases h
              · intro h
                exact absurd h (Nat.not_lt.mpr
                  (Nat.le_of_lt (digitsVal_lt_of_head_lt hb.1 hb.2 hlen'.symm h2)))
            · have hcd : c = d := char_toNat_inj (by omega)
              subst hcd
              simp only [strLt, h1, h2, if_neg, not_false_iff]
              rw [ih ha.2 hb.2 hlen']
              constructor
              · intro h
                simp only [digitsVal, hlen']
                omega
              · intro h
                simp only [digitsVal, hlen'] at h
                omega

/-- Equal-length digit strings with equal values are equal. -/
theorem digitsVal_inj : ∀ {a b : Str}, a.all isDig = true → b.all isDig = true →
    a.length = b.length → digitsVal a = digitsVal b → a = b := by
  intro a
  induction a with
  | nil =>
      intro b _ _ hlen _
      cases b with
      | nil => rfl
      | cons d bs => simp at hlen
  | cons c as ih =>
      intro b ha hb hlen hval
      cases b with
      | nil => simp at hlen
      | cons d bs =>
          rw [List.all_cons, Bool.and_eq_true] at ha hb
          have hlen' : as.length = bs.length := by simpa using hlen
          have hcd : c = d := by
            by_cases h1 : c.toNat < d.toNat
            · exact absurd hval
                (Nat.ne_of_lt (digitsVal_lt_of_head_lt ha.1 ha.2 hlen' h1))
            · by_cases h2 : d.toNat < c.toNat
              · exact absurd hval.symm
                  (Nat.ne_of_lt (digitsVal_lt_of_head_lt hb.1 hb.2 hlen'.symm h2))
              · exact char_toNat_inj (by omega)
          subst hcd
          have : digitsVal as = digitsVal bs := by
            simp only [digitsVal, hlen'] at hval
            omega
          rw [ih ha.2 hb.2 hlen' this]

/-- On canonical numerals, `lessOrEqual` computes numeric value comparison
(length-then-lexicographic comparison agrees with value order exactly
because numerals have no leading zeros). -/
theorem lessOrEqual_numeral {a b : Str} (ha : isNumeral a) (hb : isNumeral b) :
    lessOrEqual a b =
      (decide (digitsVal a < digitsVal b), decide (digitsVal a = digitsVal b)) := by
  unfold lessOrEqual
  rcases lt_trichotomy a.length b.length with h | h | h
  · have hv := digitsVal_lt_of_length_lt ha hb h
    simp only [if_neg (by omega : ¬ a.length > b.length), if_pos h]
    simp [hv, Nat.ne_of_lt hv]
  · simp only [if_neg (by omega : ¬ a.length > b.length),
      if_neg (by omega : ¬ a.length < b.length)]
    have hlt := strLt_iff_digitsVal_lt ha.2.1 hb.2.1 h
    have heqv : a = b ↔ digitsVal a = digitsVal b :=
      ⟨fun hh => by rw [hh], fun hh => digitsVal_inj ha.2.1 hb.2.1 h hh⟩
    refine Prod.ext ?_ ?_
    · cases hs : strLt a b
      · have hnlt : ¬ digitsVal a < digitsVal b := fun hc => by
          rw [hlt.mpr hc] at hs; cases hs
        simp [hnlt]
      · simp [hlt.mp hs]
    · cases he : a == b
      · have hne : a ≠ b := by simpa using he
        simp only []
        have : ¬ digitsVal a = digitsVal b := fun hh => hne (heqv.mpr hh)
        simp [this]
      · have heq : a = b := by simpa using he
        simp [heqv.mp heq]
  · have hv := digitsVal_lt_of_length_lt hb ha h
    simp only [if_pos h]
    simp [Nat.not_lt.mpr (Nat.le_of_lt hv), (Nat.ne_of_lt hv).symm]

/-! ## Claim C3 -/

/-- Claim C3: for versions whose core fields are valid decimal numerals
without leading zeros, once the core value triples differ, `Less` orders
them by arbitrary-precision numeric value of major, then minor, then
patch — not by string length or lexicographic order alone. -/
theorem claim_C3_core_numeric (v1 v2 : Version)
    (h1 : isNumeral v1.Major) (h2 : isNumeral v1.Minor) (h3 : isNumeral v1.Patch)
    (h4 : isNumeral v2.Major) (h5 : isNumeral v2.Minor) (h6 : isNumeral v2.Patch)
    (hne : ¬ (digitsVal v1.Major = digitsVal v2.Major ∧
      digitsVal v1.Minor = digitsVal v2.Minor ∧
      digitsVal v1.Patch = digitsVal v2.Patch)) :
    (Less v1 v2 = true ↔ coreTripleLtNum v1 v2) := by
  unfold Less coreTripleLtNum
  rw [lessOrEqual_numeral h1 h4, lessOrEqual_numeral h2 h5, lessOrEqual_numeral h3 h6]
  by_cases e1 : digitsVal v1.Major = digitsVal v2.Major
  · by_cases e2 : digitsVal v1.Minor = digitsVal v2.Minor
    · by_cases e3 : digitsVal v1.Patch = digitsVal v2.Patch
      · exact absurd ⟨e1, e2, e3⟩ hne
      · simp [e1, e2, e3]
    · simp [e1, e2]
  · simp [e1]

/-- Witness for C3: the spec's own example, `parse("2.0.0")` is `Less`
than `parse("10.0.0")` by numeric value although `"2" > "10"`
lexicographically. -/
theorem claim_C3_witness :
    Less (Parse "2.0.0".toList).1 (Parse "10.0.0".toList).1 = true :=
  (claim_C3_core_numeric (Parse "2.0.0".toList).1 (Parse "10.0.0".toList).1
    (by decide) (by decide) (by decide) (by decide) (by decide) (by decide)
    (by decide)).mpr (by decide)

/-! ## Claim C10 -/

/-- Claim C10: whenever `Parse` fails, the version it returns alongside
the error is the zero `Version`, never a partially populated structure. -/
theorem claim_C10_parse_error_zero (s : Str) :
    (Parse s).2.isSome → (Parse s).1 = Version.zero := by
  intro h
  unfold Parse at h ⊢
  rcases hp : semverParser 0 s ⟨[], [], [], [], []⟩ with ⟨r, v, e⟩
  cases e <;> simp [hp] at h ⊢

/-- Witness for C10 on the rejected input `"x"`. -/
theorem claim_C10_witness :
    (Parse "x".toList).2.isSome ∧ (Parse "x".toList).1 = Version.zero :=
  ⟨by decide, claim_C10_parse_error_zero _ (by decide)⟩

/-! ## Claim C5 -/

/-- Counterexample to claim C5 as stated: `Bump` on a failing option list
does not return the original input version — it returns the zero
`Version` (here on input `1.2.3` with the failing `BumpRelease` option,
whose precondition is unmet). -/
theorem claim_C5_counterexample :
    Bump (Parse "1.2.3".toList).1 [bumpRelease] =
      .res Version.zero (some "no prerelease set in version") ∧
    Version.zero ≠ (Parse "1.2.3".toList).1 := by decide

/-- Claim C5 as amended: if any option fails, `Bump` returns the zero
`Version` alongside that error; a partially bumped intermediate is never
returned. -/
theorem claim_C5_bump_error_zero (v : Version) (opts : List BOpt) (w : Version) (e : String) :
    Bump v opts = .res w (some e) → w = Version.zero := by
  intro h
  unfold Bump at h
  exact bumpLoop_err_zero _ _ _ _ h

/-- Witness for the amended C5 at a concrete input. -/
theorem claim_C5_witness :
    Bump (Parse "1.2.3".toList).1 [bumpRelease] =
      .res Version.zero (some "no prerelease set in version") ∧
    Version.zero = Version.zero :=
  ⟨by decide,
   claim_C5_bump_error_zero (Parse "1.2.3".toList).1 [bumpRelease] Version.zero
     "no prerelease set in version" (by decide)⟩

/-! ## Claim C6 -/

/-- Counterexample to claim C6 as stated: on the parsed version
`1.0.0-alpha` the pre-release list is non-empty but contains no
identifier parsing as an integer, and `BumpPrelease` succeeds as a silent
no-op instead of failing. -/
theorem claim_C6_counterexample :
    (Parse "1.0.0-alpha".toList).1.Prerelease ≠ [] ∧
    (∀ x ∈ (Parse "1.0.0-alpha".toList).1.Prerelease, parseBigInt x = none) ∧
    bumpPrelease (Parse "1.0.0-alpha".toList).1 = .ok (Parse "1.0.0-alpha".toList).1 := by
  refine ⟨by decide, by decide, ?_⟩
  decide

/-- Claim C6 as amended: `BumpPrelease` fails exactly when the
pre-release sequence is empty; on a non-empty sequence it succeeds,
incrementing by one the last identifier accepted by base-10 big-integer
parsing and leaving every other identifier unchanged, and acting as a
no-op when no identifier parses. -/
theorem claim_C6_bumpPrelease (v : Version) :
    (v.Prerelease = [] → bumpPrelease v = .fail v "no prerelease set in version") ∧
    (v.Prerelease ≠ [] →
      ((∀ x ∈ v.Prerelease, parseBigInt x = none) ∧ bumpPrelease v = .ok v) ∨
      (∃ l1 x n l2, v.Prerelease = l1 ++ x :: l2 ∧ parseBigInt x = some n ∧
        (∀ y ∈ l2, parseBigInt y = none) ∧
        bumpPrelease v = .ok { v with Prerelease := l1 ++ intToStr (n + 1) :: l2 })) := by
  constructor
  · intro h; simp [bumpPrelease, h]
  · intro h
    rcases incLast_spec v.Prerelease with ⟨hall, heq⟩ | ⟨l1, x, n, l2, hsplit, hx, hl2, heq⟩
    · left
      exact ⟨hall, by simp [bumpPrelease, h, heq]⟩
    · right
      exact ⟨l1, x, n, l2, hsplit, hx, hl2, by simp [bumpPrelease, h, heq]⟩

/-- Witness for the amended C6 on the parsed version `1.0.0-rc.1`. -/
theorem claim_C6_witness :
    (Parse "1.0.0-rc.1".toList).1.Prerelease ≠ [] ∧
    (((∀ x ∈ (Parse "1.0.0-rc.1".toList).1.Prerelease, parseBigInt x = none) ∧
        bumpPrelease (Parse "1.0.0-rc.1".toList).1 = .ok (Parse "1.0.0-rc.1".toList).1) ∨
      (∃ l1 x n l2, (Parse "1.0.0-rc.1".toList).1.Prerelease = l1 ++ x :: l2 ∧
        parseBigInt x = some n ∧ (∀ y ∈ l2, parseBigInt y = none) ∧
        bumpPrelease (Parse "1.0.0-rc.1".toList).1 =
          .ok { (Parse "1.0.0-rc.1".toList).1 with Prerelease := l1 ++ intToStr (n + 1) :: l2 })) :=
  ⟨by decide, (claim_C6_bumpPrelease (Parse "1.0.0-rc.1".toList).1).2 (by decide)⟩

/-! ## Success inversion of the grammar consumers (towards C1) -/

theorem literal_succ {val : Str} {pos : Int} {s : Str} {v : Version} {r : Str} {v1 : Version}
    (h : literal val pos s v = (r, v1, none)) : s = val ++ r ∧ v1 = v := by
  unfold literal at h
  split_ifs at h with h1 h2
  · simp at h
  · simp only [Prod.mk.injEq] at h
    obtain ⟨hr, hv, -⟩ := h
    obtain ⟨t, ht⟩ := List.isPrefixOf_iff_prefix.mp h2
    subst ht
    constructor
    · rw [← hr, List.drop_left]
    · exact hv.symm
  · simp at h

theorem literal_fail {val : Str} {pos : Int} {s : Str} {v : Version} {r : Str} {v1 : Version}
    {e : PosError} (h : literal val pos s v = (r, v1, some e)) : r = s ∧ v1 = v := by
  unfold literal at h
  split_ifs at h with h1 h2
  · simp only [Prod.mk.injEq] at h
    exact ⟨h.1.symm, h.2.1.symm⟩
  · simp at h
  · simp only [Prod.mk.injEq] at h
    exact ⟨h.1.symm, h.2.1.symm⟩

theorem number_succ {f : Version → Str → Version} {pos : Int} {s : Str} {v : Version}
    {r : Str} {v1 : Version} (h : number f pos s v = (r, v1, none)) :
    ∃ num, num ≠ [] ∧ s = num ++ r ∧ v1 = f v num := by
  simp only [number] at h
  split_ifs at h with h1 h2
  · simp at h
  · simp at h
  · simp only [Prod.mk.injEq] at h
    obtain ⟨hr, hv, -⟩ := h
    refine ⟨s.takeWhile isDig, h1, ?_, hv.symm⟩
    rw [← hr, List.takeWhile_append_dropWhile]

theorem preScan_split_pos {pos : Int} : ∀ {s : Str} {i : Nat} {nf : Bool} {j : Nat} {nf1 : Bool},
    preScan pos s i nf = .split j nf1 → 1 ≤ j := by
  intro s
  induction s with
  | nil => intro i nf j nf1 h; simp [preScan] at h
  | cons c rest ih =>
      intro i nf j nf1 h
      unfold preScan at h
      split_ifs at h with h1 h2 h3
      all_goals first
        | (cases h; omega)
        | exact ih h

theorem prerelease_succ {pos : Int} {s : Str} {v : Version} {r : Str} {v1 : Version}
    (h : prerelease pos s v = (r, v1, none)) :
    ∃ tok, tok ≠ [] ∧ s = tok ++ r ∧
      v1 = { v with Prerelease := v.Prerelease ++ [tok] } := by
  unfold prerelease at h
  split_ifs at h with h0
  · simp at h
  · rcases hscan : preScan pos s 0 true with e | ⟨i, nf⟩ | nf
    all_goals simp only [hscan] at h
    · simp at h
    · split_ifs at h with hz
      · simp at h
      · simp only [Prod.mk.injEq] at h
        obtain ⟨hr, hv, -⟩ := h
        have hj := preScan_split_pos hscan
        refine ⟨s.take i, ?_, ?_, hv.symm⟩
        · intro hcon
          cases s with
          | nil => exact h0 rfl
          | cons a as =>
              rw [List.take_cons (by omega : 0 < i)] at hcon
              cases hcon
        · rw [← hr, List.take_append_drop]
    · split_ifs at h with hz
      · simp at h
      · simp only [Prod.mk.injEq] at h
        obtain ⟨hr, hv, -⟩ := h
        exact ⟨s, h0, by rw [← hr, List.append_nil], hv.symm⟩

theorem bmScan_split_pos {pos : Int} : ∀ {s : Str} {i : Nat} {j : Nat} {b : Bool},
    bmScan pos s i = .split j b → 1 ≤ j := by
  intro s
  induction s with
  | nil => intro i j b h; simp [bmScan] at h
  | cons c rest ih =>
      intro i j b h
      unfold bmScan at h
      split_ifs at h with h1 h2 h3
      all_goals first
        | (cases h; omega)
        | exact ih h

theorem buildmetadata_succ {pos : Int} {s : Str} {v : Version} {r : Str} {v1 : Version}
    (h : buildmetadata pos s v = (r, v1, none)) :
    ∃ tok, tok ≠ [] ∧ s = tok ++ r ∧
      v1 = { v with Buildmetadata := v.Buildmetadata ++ [tok] } := by
  unfold buildmetadata at h
  split_ifs at h with h0
  · simp at h
  · rcases hscan : bmScan pos s 0 with e | ⟨i, b⟩ | b
    all_goals simp only [hscan] at h
    · simp at h
    · simp only [Prod.mk.injEq] at h
      obtain ⟨hr, hv, -⟩ := h
      have hj := bmScan_split_pos hscan
      refine ⟨s.take i, ?_, ?_, hv.symm⟩
      · intro hcon
        cases s with
        | nil => exact h0 rfl
        | cons a as =>
            rw [List.take_cons (by omega : 0 < i)] at hcon
            cases hcon
      · rw [← hr, List.take_append_drop]
    · simp only [Prod.mk.injEq] at h
      obtain ⟨hr, hv, -⟩ := h
      exact ⟨s, h0, by rw [← hr, List.append_nil], hv.symm⟩

theorem excess_succ {pos : Int} {s : Str} {v : Version} {r : Str} {v1 : Version}
    (h : excess pos s v = (r, v1, none)) : s = [] ∧ r = [] ∧ v1 = v := by
  unfold excess at h
  split_ifs at h with h1
  · simp only [Prod.mk.injEq] at h
    exact ⟨h1, h.1.symm, h.2.1.symm⟩
  · simp at h

theorem sequence_cons_succ {c : Consumer} {cs : List Consumer} {pos : Int} {s : Str}
    {v : Version} {r : Str} {v1 : Version}
    (h : sequence (c :: cs) pos s v = (r, v1, none)) :
    ∃ r2 v2, c pos s v = (r2, v2, none) ∧
      sequence cs (pos + ((s.length : Int) - (r2.length : Int))) r2 v2 = (r, v1, none) := by
  simp only [sequence] at h
  rcases hc : c pos s v with ⟨rc, vc, ec⟩
  rw [hc] at h
  cases ec with
  | some e0 => simp at h
  | none => exact ⟨rc, vc, rfl, h⟩

theorem sequence_nil_succ {pos : Int} {s : Str} {v : Version} {r : Str} {v1 : Version}
    (h : sequence [] pos s v = (r, v1, none)) : r = s ∧ v1 = v := by
  simp only [sequence, Prod.mk.injEq] at h
  exact ⟨h.1.symm, h.2.1.symm⟩

theorem optLoop_nil_succ {orig : Str} {pos : Int} {s : Str} {v : Version} {r : Str}
    {v1 : Version} (h : optLoop orig [] pos s v = (r, v1, none)) : r = s ∧ v1 = v := by
  simp only [optLoop, Prod.mk.injEq] at h
  exact ⟨h.1.symm, h.2.1.symm⟩

theorem optLoop_cons_succ {orig : Str} {c : Consumer} {cs : List Consumer} {pos : Int}
    {s : Str} {v : Version} {r : Str} {v1 : Version}
    (h : optLoop orig (c :: cs) pos s v = (r, v1, none)) :
    ∃ r2 v2, c pos s v = (r2, v2, none) ∧
      optLoop orig cs (pos + ((orig.length : Int) - (r2.length : Int))) r2 v2 =
        (r, v1, none) := by
  simp only [optLoop] at h
  rcases hc : c pos s v with ⟨rc, vc, ec⟩
  rw [hc] at h
  cases ec with
  | some e0 => simp at h
  | none => exact ⟨rc, vc, rfl, h⟩

theorem optional_succ {probe : Consumer} {cs : List Consumer} {pos : Int} {s : Str}
    {v : Version} {r : Str} {v1 : Version}
    (h : optional probe cs pos s v = (r, v1, none)) :
    (∃ r2 e, probe pos s v = (r2, v1, some e) ∧ r = s) ∨
    (∃ r2 v2, probe pos s v = (r2, v2, none) ∧
      optLoop s cs (pos + ((s.length : Int) - (r2.length : Int))) r2 v2 = (r, v1, none)) := by
  unfold optional at h
  rcases hp : probe pos s v with ⟨rp, vp, ep⟩
  rw [hp] at h
  cases ep with
  | some e0 =>
      simp only [Prod.mk.injEq] at h
      obtain ⟨hr, hv, -⟩ := h
      subst hv
      exact Or.inl ⟨rp, e0, rfl, hr.symm⟩
  | none => exact Or.inr ⟨rp, vp, rfl, h⟩

theorem joinDots_cons (t : Str) (ts : List Str) :
    joinDots (t :: ts) = t ++ (ts.map (fun x => '.' :: x)).flatten := by
  induction ts generalizing t with
  | nil => simp [joinDots]
  | cons t2 ts ih =>
      show t ++ '.' :: joinDots (t2 :: ts) = _
      rw [ih t2]
      simp

/-- Success of the `dot`-separated repetition: the consumed input is a
join of `.`-prefixed non-empty tokens and the version accumulates exactly
those tokens through `upd`. -/
theorem repeatFuel_dot_succ (p : Consumer) (upd : Version → Str → Version)
    (hp : ∀ pos s v r v1, p pos s v = (r, v1, none) →
      ∃ tok, tok ≠ [] ∧ s = tok ++ r ∧ v1 = upd v tok) :
    ∀ (fuel : Nat) (orig : Str) (pos : Int) (s : Str) (v : Version) (r : Str) (v1 : Version),
      repeatFuel orig fuel [dot, p] pos s v = (r, v1, none) →
      ∃ toks : List Str, s = (toks.map (fun t => '.' :: t)).flatten ++ r ∧
        v1 = toks.foldl upd v := by
  intro fuel
  induction fuel with
  | zero => intro orig pos s v r v1 h; simp [repeatFuel] at h
  | succ n ih =>
      intro orig pos s v r v1 h
      simp only [repeatFuel] at h
      rcases hd : dot pos s v with ⟨rd, vd, ed⟩
      have hd2 : literal ['.'] pos s v = (rd, vd, ed) := hd
      cases ed with
      | some e0 =>
          have hstop : repPass [dot, p] pos s v = .stop rd vd := by
            simp only [repPass, hd]
          rw [hstop] at h
          simp only [Prod.mk.injEq] at h
          obtain ⟨hr, hv, -⟩ := h
          obtain ⟨hrs, hvs⟩ := literal_fail hd2
          refine ⟨[], ?_, ?_⟩
          · simp [← hr, hrs]
          · simp [← hv, hvs]
      | none =>
          obtain ⟨hs_eq, hv_eq⟩ := literal_succ hd2
          rcases hq : p (pos + ((s.length : Int) - (rd.length : Int))) rd vd with ⟨rq, vq, eq2⟩
          cases eq2 with
          | some e1 =>
              have : repPass [dot, p] pos s v = .hardErr vq e1 := by
                simp only [repPass, hd, repPassTail, hq]
              rw [this] at h
              simp at h
          | none =>
              have hnext : repPass [dot, p] pos s v =
                  .next (pos + ((s.length : Int) - (rd.length : Int)) +
                    ((rd.length : Int) - (rq.length : Int))) rq vq := by
                simp only [repPass, hd, repPassTail, hq]
              rw [hnext] at h
              obtain ⟨tok, htokne, hsq, hvq⟩ := hp _ _ _ _ _ hq
              obtain ⟨toks, hrs2, hv2⟩ := ih orig _ rq vq r v1 h
              refine ⟨tok :: toks, ?_, ?_⟩
              · rw [hs_eq, hsq, hrs2]
                simp
              · rw [hv2, hvq, hv_eq]
                simp [List.foldl]

/-- Success of one optional section `optional (literal [ch]) [p, repeat(dot, p)]`:
either the probe character is absent and nothing changes, or the section
is `ch` followed by a dot-separated list of tokens accumulated through
`upd`. -/
theorem optional_section_succ (ch : Char) (p : Consumer) (upd : Version → Str → Version)
    (hp : ∀ pos s v r v1, p pos s v = (r, v1, none) →
      ∃ tok, tok ≠ [] ∧ s = tok ++ r ∧ v1 = upd v tok)
    {pos : Int} {s : Str} {v : Version} {r : Str} {v1 : Version}
    (h : optional (literal [ch]) [p, repeatGo [dot, p]] pos s v = (r, v1, none)) :
    (r = s ∧ v1 = v) ∨
    (∃ (tok : Str) (toks : List Str), tok ≠ [] ∧
      s = ch :: (tok ++ ((toks.map (fun t => '.' :: t)).flatten ++ r)) ∧
      v1 = toks.foldl upd (upd v tok)) := by
  rcases optional_succ h with ⟨r2, e, hpr, hrs⟩ | ⟨r2, v2, hpr, hloop⟩
  · obtain ⟨-, hv⟩ := literal_fail hpr
    exact Or.inl ⟨hrs, hv⟩
  · obtain ⟨hs2, hv2⟩ := literal_succ hpr
    obtain ⟨r3, v3, hp3, hloop2⟩ := optLoop_cons_succ hloop
    obtain ⟨r4, v4, hp4, hloop3⟩ := optLoop_cons_succ hloop2
    obtain ⟨hr4, hv4⟩ := optLoop_nil_succ hloop3
    obtain ⟨tok, htokne, hsr, hvtok⟩ := hp _ _ _ _ _ hp3
    have hp4f : repeatFuel r3 (r3.length + 1) [dot, p] _ r3 v3 = (r4, v4, none) := hp4
    obtain ⟨toks, hrs2, hv3⟩ := repeatFuel_dot_succ p upd hp _ _ _ _ _ _ _ hp4f
    refine Or.inr ⟨tok, toks, htokne, ?_, ?_⟩
    · rw [hs2, hsr, hrs2, hr4]
      simp
    · rw [hv4, hv3, hvtok, hv2]

theorem foldl_prerelease (toks : List Str) :
    ∀ v : Version,
      toks.foldl (fun v t => { v with Prerelease := v.Prerelease ++ [t] }) v =
        { v with Prerelease := v.Prerelease ++ toks } := by
  induction toks with
  | nil => intro v; simp
  | cons t ts ih =>
      intro v
      simp only [List.foldl_cons, ih]
      simp

theorem foldl_buildmetadata (toks : List Str) :
    ∀ v : Version,
      toks.foldl (fun v t => { v with Buildmetadata := v.Buildmetadata ++ [t] }) v =
        { v with Buildmetadata := v.Buildmetadata ++ toks } := by
  induction toks with
  | nil => intro v; simp
  | cons t ts ih =>
      intro v
      simp only [List.foldl_cons, ih]
      simp

/-! ## Claim C1 -/

/-- Claim C1: for every string accepted by `Parse`, rendering the parsed
`Version` with the `String` method yields exactly the input string —
rendering is an exact left inverse of parsing on accepted inputs. -/
theorem claim_C1_roundtrip (s : Str) (v : Version) (h : Parse s = (v, none)) :
    VersionString v = s := by
  unfold Parse at h
  rcases hp : semverParser 0 s ⟨[], [], [], [], []⟩ with ⟨r0, v0, e0⟩
  cases e0 with
  | some e => rw [hp] at h; simp at h
  | none =>
      rw [hp] at h
      simp only [Prod.mk.injEq] at h
      obtain ⟨hv, -⟩ := h
      subst hv
      unfold semverParser semverParserList at hp
      obtain ⟨r1, w1, hmaj, hp⟩ := sequence_cons_succ hp
      obtain ⟨M, hMne, hsM, hw1⟩ := number_succ hmaj
      obtain ⟨r2, w2, hdot1, hp⟩ := sequence_cons_succ hp
      obtain ⟨hsd1, hw2⟩ := literal_succ hdot1
      obtain ⟨r3, w3, hmin, hp⟩ := sequence_cons_succ hp
      obtain ⟨mi, hmine, hsm, hw3⟩ := number_succ hmin
      obtain ⟨r4, w4, hdot2, hp⟩ := sequence_cons_succ hp
      obtain ⟨hsd2, hw4⟩ := literal_succ hdot2
      obtain ⟨r5, w5, hpat, hp⟩ := sequence_cons_succ hp
      obtain ⟨pa, hpane, hsp, hw5⟩ := number_succ hpat
      obtain ⟨r6, w6, hopt1, hp⟩ := sequence_cons_succ hp
      obtain ⟨r7, w7, hopt2, hp⟩ := sequence_cons_succ hp
      obtain ⟨r8, w8, hexc, hp⟩ := sequence_cons_succ hp
      obtain ⟨hr7nil, hr8nil, hw8⟩ := excess_succ hexc
      obtain ⟨hr0, hv0⟩ := sequence_nil_succ hp
      have hsec1 := optional_section_succ '-' prerelease
        (fun v t => { v with Prerelease := v.Prerelease ++ [t] })
        (fun _ _ _ _ _ hh => prerelease_succ hh) hopt1
      have hsec2 := optional_section_succ '+' buildmetadata
        (fun v t => { v with Buildmetadata := v.Buildmetadata ++ [t] })
        (fun _ _ _ _ _ hh => buildmetadata_succ hh) hopt2
      subst hw1 hw2 hw3 hw4 hw5
      subst hv0 hw8
      rcases hsec1 with ⟨hr6, hw6⟩ | ⟨tok, toks, htokne, hr5, hw6⟩ <;>
        rcases hsec2 with ⟨hr7, hw7⟩ | ⟨tok2, toks2, htok2ne, hr6e, hw7⟩ <;>
          subst hw6 hw7 <;>
            simp only [foldl_prerelease, foldl_buildmetadata] <;>
              rw [hsM, hsd1, hsm, hsd2, hsp] <;>
                simp_all [VersionString, joinDots_cons]

/-- Witness for C1 at a concrete accepted input exercising core,
pre-release and build-metadata sections. -/
theorem claim_C1_witness :
    Parse "1.2.3-rc.1+build.7".toList =
      ((Parse "1.2.3-rc.1+build.7".toList).1, none) ∧
    VersionString (Parse "1.2.3-rc.1+build.7".toList).1 = "1.2.3-rc.1+build.7".toList :=
  ⟨by decide,
   claim_C1_roundtrip "1.2.3-rc.1+build.7".toList (Parse "1.2.3-rc.1+build.7".toList).1
     (by decide)⟩

/-! ## Claim C2 -/

/-- Claim C2, evaluated at its failing input: the parsed versions
`1.0.0-1.alpha` and `1.0.0-1.beta` have equal cores and non-empty
pre-release lists whose first identifiers are both numeric and equal, yet
`Less` is false in both directions: the comparison loop returns
immediately on a both-numeric pair instead of moving to the next pair,
where `alpha < beta` should decide the result. -/
theorem claim_C2_eval :
    Parse "1.0.0-1.alpha".toList =
      (⟨['1'], ['0'], ['0'], [['1'], ['a', 'l', 'p', 'h', 'a']], []⟩, none) ∧
    Parse "1.0.0-1.beta".toList =
      (⟨['1'], ['0'], ['0'], [['1'], ['b', 'e', 't', 'a']], []⟩, none) ∧
    Less (Parse "1.0.0-1.alpha".toList).1 (Parse "1.0.0-1.beta".toList).1 = false ∧
    Less (Parse "1.0.0-1.beta".toList).1 (Parse "1.0.0-1.alpha".toList).1 = false ∧
    strLt ['a', 'l', 'p', 'h', 'a'] ['b', 'e', 't', 'a'] = true := by decide

/-! ## Claim C4 -/

/-- Claim C4, evaluated at its failing input: the parsed versions
`1.0.0-1` and `1.0.0-1.2` satisfy neither `Less` direction — the
both-numeric equal first pair short-circuits the pre-release comparison as
overall equality — yet their pre-release identifier sequences differ, so
the third case of the trichotomy does not imply identical pre-release
sequences. -/
theorem claim_C4_eval :
    Parse "1.0.0-1".toList = (⟨['1'], ['0'], ['0'], [['1']], []⟩, none) ∧
    Parse "1.0.0-1.2".toList = (⟨['1'], ['0'], ['0'], [['1'], ['2']], []⟩, none) ∧
    Less (Parse "1.0.0-1".toList).1 (Parse "1.0.0-1.2".toList).1 = false ∧
    Less (Parse "1.0.0-1.2".toList).1 (Parse "1.0.0-1".toList).1 = false ∧
    (Parse "1.0.0-1".toList).1.Prerelease ≠ (Parse "1.0.0-1.2".toList).1.Prerelease := by decide

/-! ## Claim C7 -/

/-- Claim C7, evaluated at its failing input: in the heap model of Go
slices, a version holding the parsed value of `1.0.0-rc.1` (its
pre-release slice at reference 0) is bumped with `BumpPrelease`; the bump
succeeds, and afterwards reading the *input* version's pre-release slice
yields `rc.2` — the shallow struct copy in `Bump` shares the backing
array, so the input was mutated in place. -/
theorem claim_C7_eval :
    loadH [[['r', 'c'], ['1']], []] ⟨['1'], ['0'], ['0'], some 0, some 1⟩ =
      (Parse "1.0.0-rc.1".toList).1 ∧
    deref [[['r', 'c'], ['1']], []] (some 0) = [['r', 'c'], ['1']] ∧
    (BumpH [[['r', 'c'], ['1']], []] ⟨['1'], ['0'], ['0'], some 0, some 1⟩
      [bumpPreleaseH]).2.2 = none ∧
    deref (BumpH [[['r', 'c'], ['1']], []] ⟨['1'], ['0'], ['0'], some 0, some 1⟩
      [bumpPreleaseH]).1 (some 0) = [['r', 'c'], ['2']] := by decide

/-! ## Claim C9 -/

/-- Claim C9, evaluated at its failing input: parsing `x.0.0` fails
because the character at 0-based offset 0 is not a digit where a number
was required, but the returned error carries position 1 (`number` reports
`pos+1`), not the 0-based offset of the violation. -/
theorem claim_C9_eval :
    Parse "x.0.0".toList =
      (Version.zero, some ⟨1, "unexpected non-numeric character"⟩) ∧
    "x.0.0".toList.headI = 'x' ∧ isDig 'x' = false := by decide

/-! ## Claim C8 -/

/-- Counterexample to claim C8 as stated: running the two-consumer
sequence `dot, dot` on `".x"` fails at the second consumer, and the
remaining input returned with the error is `"x"` — the stream as advanced
past the first consumer — not the original `".x"`. -/
theorem claim_C8_counterexample :
    sequence [dot, dot] 0 ".x".toList Version.zero =
      ("x".toList, Version.zero,
        some ⟨1, "unexpected character in place where dot was expected"⟩) ∧
    "x".toList ≠ ".x".toList := by decide

/-- Claim C8 as amended: when a consumer in a sequence fails, the
combinator returns the remaining input exactly as it stood when the
failing consumer ran — the original input as advanced past every
previously successful consumer — together with that consumer's error. -/
theorem claim_C8_sequence_fail (cs : List Consumer) (pos : Int) (s : Str) (v : Version)
    (r : Str) (v1 : Version) (e : PosError) :
    sequence cs pos s v = (r, v1, some e) →
    ∃ cs1 c cs2 v2 r2,
      cs = cs1 ++ c :: cs2 ∧
      sequence cs1 pos s v = (r, v2, none) ∧
      c (pos + ((s.length : Int) - (r.length : Int))) r v2 = (r2, v1, some e) := by
  induction cs generalizing pos s v with
  | nil => intro h; simp [sequence] at h
  | cons c cs ih =>
      intro h
      simp only [sequence] at h
      rcases hc : c pos s v with ⟨rc, vc, ec⟩
      rw [hc] at h
      cases ec with
      | some e0 =>
          simp only [Prod.mk.injEq, Option.some.injEq] at h
          obtain ⟨h1, h2, h3⟩ := h
          subst h1 h2 h3
          refine ⟨[], c, cs, v, rc, rfl, by simp [sequence], ?_⟩
          have hpos : pos + ((s.length : Int) - (s.length : Int)) = pos := by ring
          rw [hpos, hc]
      | none =>
          simp only at h
          obtain ⟨cs1, c0, cs2, v2, r2, hsplit, hrun, hfail⟩ := ih _ _ _ h
          refine ⟨c :: cs1, c0, cs2, v2, r2, by simp [hsplit], ?_, ?_⟩
          · simp only [sequence, hc]
            exact hrun
          · have : pos + ((s.length : Int) - (rc.length : Int)) +
                ((rc.length : Int) - (r.length : Int)) =
                pos + ((s.length : Int) - (r.length : Int)) := by ring
            rw [← this]
            exact hfail

/-- Witness for the amended C8 at the concrete failing run of
`sequence [dot, dot]` on `".x"`. -/
theorem claim_C8_witness :
    ∃ cs1 c cs2 v2 r2,
      ([dot, dot] : List Consumer) = cs1 ++ c :: cs2 ∧
      sequence cs1 0 ".x".toList Version.zero = ("x".toList, v2, none) ∧
      c (0 + ((".x".toList.length : Int) - ("x".toList.length : Int))) "x".toList v2 =
        (r2, Version.zero,
          some ⟨1, "unexpected character in place where dot was expected"⟩) :=
  claim_C8_sequence_fail [dot, dot] 0 ".x".toList Version.zero "x".toList Version.zero
    ⟨1, "unexpected character in place where dot was expected"⟩ (by decide)

end Semver
